/-
Verification of the community-quack analog quantum compiler core.
Shallow embedding of the Go sources (pkg/analog/compiler.go, ising.go,
cmd/compiler/main.go), the Svelte k-coloring encoder
(frontend/src/App.svelte) and the Pulser sequence structures
(pkg/utils/helpers.go), with theorems settling the specification claims.
Go float64 coefficients are modelled as rationals (the programs only store
them, never compute with them), Go int as Int, Go maps as association
lists read by first match (keys are never overwritten by the embedded
code paths, so first-match lookup agrees with Go map semantics).
-/
import Mathlib

namespace Quack

/-- Coefficient values (Go float64; only stored, never computed with). -/
abbrev Coeff := ℚ

/-- Association-list read, the embedding of a Go map index expression. -/
def mapGet {κ α : Type} [DecidableEq κ] : List (κ × α) → κ → Option α
  | [], _ => none
  | p :: ps, k => if p.1 = k then some p.2 else mapGet ps k

theorem mapGet_nil {κ α : Type} [DecidableEq κ] (k : κ) :
    mapGet ([] : List (κ × α)) k = none := rfl

theorem mapGet_append {κ α : Type} [DecidableEq κ] (l₁ l₂ : List (κ × α)) (k : κ) :
    mapGet (l₁ ++ l₂) k =
      match mapGet l₁ k with
      | some v => some v
      | none => mapGet l₂ k := by
  induction l₁ with
  | nil => simp [mapGet]
  | cons p ps ih =>
    by_cases h : p.1 = k <;> simp [mapGet, h, ih]

theorem mapGet_eq_none_iff {κ α : Type} [DecidableEq κ] (l : List (κ × α)) (k : κ) :
    mapGet l k = none ↔ k ∉ l.map Prod.fst := by
  induction l with
  | nil => simp [mapGet]
  | cons p ps ih =>
    by_cases h : p.1 = k
    · simp [mapGet, h]
    · simp only [mapGet, if_neg h, List.map_cons, List.mem_cons, ih]
      constructor
      · intro hn hc
        rcases hc with hc | hc
        · exact h hc.symm
        · exact hn hc
      · intro hn hc
        exact hn (Or.inr hc)

theorem mapGet_eq_some_of_allval {κ α : Type} [DecidableEq κ]
    (l : List (κ × α)) (k : κ) (a : α)
    (hval : ∀ p ∈ l, p.2 = a) (hmem : k ∈ l.map Prod.fst) :
    mapGet l k = some a := by
  induction l with
  | nil => simp at hmem
  | cons p ps ih =>
    by_cases h : p.1 = k
    · simp [mapGet, h, hval p (by simp)]
    · simp only [List.map_cons, List.mem_cons] at hmem
      rcases hmem with hmem | hmem

      · exact absurd hmem.symm h
      · exact (by simp [mapGet, h,
          ih (fun q hq => hval q (by simp [hq])) hmem])

/-- Graph from pkg/analog/ising.go: vertex count and list of edges. -/
structure Graph where
  Vertices : Int
  Edges : List (Int × Int)
  deriving DecidableEq

/-- IsingModel from pkg/analog/ising.go: spin count, interaction map
J_ij keyed by canonical index pairs, external field map h_i. -/
structure IsingModel where
  Spins : Int
  Interactions : List ((Int × Int) × Coeff)
  ExternalField : List (Int × Coeff)
  deriving DecidableEq

/-- The Go zero value IsingModel\x7b\x7d, returned by CompileMIS to signal an
encoding error (duplicate edge). -/
def emptyIsing : IsingModel := ⟨0, [], []⟩

/-- Canonical edge key: smaller index first (compiler.go lines 22-27). -/
def canonKey (a b : Int) : Int × Int := if a < b then (a, b) else (b, a)

/-- Edge loop of CompileMIS (compiler.go lines 20-34): insert j under the
canonical key of each edge, failing (early return) when the key exists. -/
def addEdges (j : Coeff) :
    List (Int × Int) → List ((Int × Int) × Coeff) →
    Option (List ((Int × Int) × Coeff))
  | [], acc => some acc
  | e :: rest, acc =>
    let key := canonKey e.1 e.2
    if (mapGet acc key).isSome then none
    else addEdges j rest (acc ++ [(key, j)])

/-- Field loop of CompileMIS (compiler.go lines 15-17): h_i := h for
i = 0 .. Vertices-1 (empty when Vertices ≤ 0, as in Go). -/
def mkFields (n : Int) (h : Coeff) : List (Int × Coeff) :=
  (List.range n.toNat).map (fun m => (Int.ofNat m, h))

/-- CompileMIS from pkg/analog/compiler.go: spin per vertex, field h per
vertex, interaction j per edge under the canonical key; returns the zero
model when a canonical key repeats. -/
def CompileMIS (graph : Graph) (h j : Coeff) : IsingModel :=
  match addEdges j graph.Edges [] with
  | none => emptyIsing
  | some inter => ⟨graph.Vertices, inter, mkFields graph.Vertices h⟩

/-- Validation errors of validateGraph (cmd/compiler/main.go lines 159-172),
one constructor per distinct error message. -/
inductive VError where
  | invalidVertexCount : VError
  | invalidEdgeEndpoint : Int × Int → VError
  | selfLoop : Int × Int → VError
  deriving DecidableEq

instance {ε α : Type} [DecidableEq ε] [DecidableEq α] :
    DecidableEq (Except ε α) := fun a b =>
  match a, b with
  | Except.ok x, Except.ok y =>
    if h : x = y then isTrue (by rw [h])
    else isFalse (fun hc => h (Except.ok.inj hc))
  | Except.ok _, Except.error _ => isFalse (fun hc => Except.noConfusion hc)
  | Except.error _, Except.ok _ => isFalse (fun hc => Except.noConfusion hc)
  | Except.error x, Except.error y =>
    if h : x = y then isTrue (by rw [h])
    else isFalse (fun hc => h (Except.error.inj hc))

/-- Edge loop of validateGraph: per edge, the out-of-range check runs
before the self-loop check, first offending edge wins. -/
def validateEdges (n : Int) : List (Int × Int) → Except VError Unit
  | [] => Except.ok ()
  | e :: rest =>
    if e.1 < 0 ∨ n ≤ e.1 ∨ e.2 < 0 ∨ n ≤ e.2 then
      Except.error (VError.invalidEdgeEndpoint e)
    else if e.1 = e.2 then Except.error (VError.selfLoop e)
    else validateEdges n rest

/-- validateGraph from cmd/compiler/main.go lines 159-172: positive vertex
count, then the per-edge checks. -/
def validateGraph (g : Graph) : Except VError Unit :=
  if g.Vertices ≤ 0 then Except.error VError.invalidVertexCount
  else validateEdges g.Vertices g.Edges

/-- An edge endpoint pair lies inside [0, n) in both components. -/
def edgeInRange (n : Int) (e : Int × Int) : Prop :=
  0 ≤ e.1 ∧ e.1 < n ∧ 0 ≤ e.2 ∧ e.2 < n

instance (n : Int) (e : Int × Int) : Decidable (edgeInRange n e) := by
  unfold edgeInRange; infer_instance

theorem validateEdges_ok_iff (n : Int) (es : List (Int × Int)) :
    validateEdges n es = Except.ok () ↔
      ∀ e ∈ es, edgeInRange n e ∧ e.1 ≠ e.2 := by
  induction es with
  | nil => simp [validateEdges]
  | cons e rest ih =>
    by_cases hr : e.1 < 0 ∨ n ≤ e.1 ∨ e.2 < 0 ∨ n ≤ e.2
    · simp only [validateEdges, if_pos hr]
      constructor
      · intro hc; cases hc
      · intro hall
        have := (hall e (by simp)).1
        unfold edgeInRange at this
        omega
    · by_cases hl : e.1 = e.2
      · simp only [validateEdges, if_neg hr, if_pos hl]
        constructor
        · intro hc; cases hc
        · intro hall; exact absurd hl (hall e (by simp)).2
      · simp only [validateEdges, if_neg hr, if_neg hl, ih]
        constructor
        · intro hall e' he'
          rcases List.mem_cons.mp he' with he' | he'
          · subst he'
            refine ⟨?_, hl⟩
            unfold edgeInRange; omega
          · exact hall e' he'
        · intro hall e' he'
          exact hall e' (by simp [he'])

theorem validateEdges_ne_vc (n : Int) (es : List (Int × Int)) :
    validateEdges n es ≠ Except.error VError.invalidVertexCount := by
  induction es with
  | nil => simp [validateEdges]
  | cons e rest ih =>
    by_cases hr : e.1 < 0 ∨ n ≤ e.1 ∨ e.2 < 0 ∨ n ≤ e.2
    · simp [validateEdges, hr]
    · by_cases hl : e.1 = e.2
      · simp only [validateEdges, if_neg hr, if_pos hl]
        simp
      · simp only [validateEdges, if_neg hr, if_neg hl]
        exact ih

theorem validateEdges_endpoint (n : Int) (es : List (Int × Int)) (e : Int × Int)
    (h : validateEdges n es = Except.error (VError.invalidEdgeEndpoint e)) :
    e ∈ es ∧ ¬ edgeInRange n e := by
  induction es with
  | nil => simp [validateEdges] at h
  | cons e' rest ih =>
    by_cases hr : e'.1 < 0 ∨ n ≤ e'.1 ∨ e'.2 < 0 ∨ n ≤ e'.2
    · simp only [validateEdges, if_pos hr, Except.error.injEq,
        VError.invalidEdgeEndpoint.injEq] at h
      subst h
      refine ⟨by simp, ?_⟩
      unfold edgeInRange; omega
    · by_cases hl : e'.1 = e'.2
      · simp only [validateEdges, if_neg hr, if_pos hl] at h
        cases h
      · simp only [validateEdges, if_neg hr, if_neg hl] at h
        have := ih h
        exact ⟨by simp [this.1], this.2⟩

theorem validateEdges_selfLoop (n : Int) (es : List (Int × Int)) (e : Int × Int)
    (h : validateEdges n es = Except.error (VError.selfLoop e)) :
    e ∈ es ∧ e.1 = e.2 ∧ edgeInRange n e := by
  induction es with
  | nil => simp [validateEdges] at h
  | cons e' rest ih =>
    by_cases hr : e'.1 < 0 ∨ n ≤ e'.1 ∨ e'.2 < 0 ∨ n ≤ e'.2
    · simp [validateEdges, hr] at h
    · by_cases hl : e'.1 = e'.2
      · simp only [validateEdges, if_neg hr, if_pos hl, Except.error.injEq,
          VError.selfLoop.injEq] at h
        subst h
        refine ⟨by simp, hl, ?_⟩
        unfold edgeInRange; omega
      · simp only [validateEdges, if_neg hr, if_neg hl] at h
        have := ih h
        exact ⟨by simp [this.1], this.2⟩

theorem validateGraph_ok_iff (g : Graph) :
    validateGraph g = Except.ok () ↔
      0 < g.Vertices ∧ ∀ e ∈ g.Edges, edgeInRange g.Vertices e ∧ e.1 ≠ e.2 := by
  unfold validateGraph
  by_cases hv : g.Vertices ≤ 0
  · simp only [if_pos hv]
    constructor
    · intro hc; cases hc
    · intro hc; omega
  · simp only [if_neg hv, validateEdges_ok_iff]
    constructor
    · intro hall; exact ⟨by omega, hall⟩
    · intro hall; exact hall.2

theorem addEdges_eq_append (j : Coeff) (es : List (Int × Int))
    (acc out : List ((Int × Int) × Coeff))
    (h : addEdges j es acc = some out) :
    out = acc ++ es.map (fun e => (canonKey e.1 e.2, j)) := by
  induction es generalizing acc with
  | nil =>
    simp only [addEdges, Option.some.injEq] at h
    simp [h.symm]
  | cons e rest ih =>
    simp only [addEdges] at h
    by_cases hg : (mapGet acc (canonKey e.1 e.2)).isSome
    · simp [hg] at h
    · simp only [hg, if_false, Bool.false_eq_true] at h
      have := ih _ h
      simp [this]

theorem addEdges_some_nodup (j : Coeff) (es : List (Int × Int))
    (acc out : List ((Int × Int) × Coeff))
    (h : addEdges j es acc = some out) :
    (es.map (fun e => canonKey e.1 e.2)).Nodup ∧
      ∀ e ∈ es, mapGet acc (canonKey e.1 e.2) = none := by
  induction es generalizing acc with
  | nil => simp
  | cons e rest ih =>
    simp only [addEdges] at h
    by_cases hg : (mapGet acc (canonKey e.1 e.2)).isSome
    · simp [hg] at h
    · simp only [hg, if_false, Bool.false_eq_true] at h
      have hrec := ih _ h
      have hnone : mapGet acc (canonKey e.1 e.2) = none := by
        cases hc : mapGet acc (canonKey e.1 e.2)
        · rfl
        · simp [hc] at hg
      refine ⟨?_, ?_⟩
      · simp only [List.map_cons, List.nodup_cons]
        refine ⟨?_, hrec.1⟩
        intro hmem
        rcases List.mem_map.mp hmem with ⟨e', he', hkey⟩
        have := hrec.2 e' he'
        rw [mapGet_eq_none_iff] at this
        exact this (by simp [hkey])
      · intro e' he'
        rcases List.mem_cons.mp he' with he' | he'
        · subst he'; exact hnone
        · have := hrec.2 e' he'
          rw [mapGet_eq_none_iff] at this ⊢
          intro hc
          exact this (by simp at hc ⊢; tauto)

theorem addEdges_isSome_of_nodup (j : Coeff) (es : List (Int × Int))
    (acc : List ((Int × Int) × Coeff))
    (hnd : (es.map (fun e => canonKey e.1 e.2)).Nodup)
    (hdisj : ∀ e ∈ es, mapGet acc (canonKey e.1 e.2) = none) :
    (addEdges j es acc).isSome := by
  induction es generalizing acc with
  | nil => simp [addEdges]
  | cons e rest ih =>
    simp only [List.map_cons, List.nodup_cons] at hnd
    have hnone := hdisj e (by simp)
    simp only [addEdges, hnone, Option.isSome_none, Bool.false_eq_true,
      if_false]
    refine ih _ hnd.2 ?_
    intro e' he'
    rw [mapGet_eq_none_iff]
    have hold := hdisj e' (by simp [he'])
    rw [mapGet_eq_none_iff] at hold
    intro hc
    simp only [List.map_append, List.mem_append] at hc
    rcases hc with hc | hc
    · exact hold hc
    · simp only [List.map_cons, List.map_nil, List.mem_singleton] at hc
      exact hnd.1 (hc ▸ List.mem_map.mpr ⟨e', he', rfl⟩)

theorem addEdges_eq_none_of_not_nodup (j : Coeff) (es : List (Int × Int))
    (acc : List ((Int × Int) × Coeff))
    (hnd : ¬ (es.map (fun e => canonKey e.1 e.2)).Nodup) :
    addEdges j es acc = none := by
  cases hc : addEdges j es acc with
  | none => rfl
  | some out => exact absurd (addEdges_some_nodup j es acc out hc).1 hnd

theorem mapGet_mkFields (n : Nat) (hc : Coeff) (i : Int) :
    mapGet ((List.range n).map (fun m => (Int.ofNat m, hc))) i =
      if 0 ≤ i ∧ i < (n : Int) then some hc else none := by
  induction n with
  | zero =>
    rw [if_neg (by omega)]
    rfl
  | succ m ih =>
    rw [List.range_succ, List.map_append, mapGet_append, ih]
    by_cases h1 : 0 ≤ i ∧ i < (m : Int)
    · simp only [if_pos h1]
      rw [if_pos (by omega)]
    · simp only [if_neg h1]
      by_cases h2 : i = (m : Int)
      · simp only [List.map_cons, List.map_nil, mapGet, h2]
        rw [if_pos (show Int.ofNat m = (m : Int) from rfl), if_pos (by omega)]
      · rw [if_neg (by omega)]
        show mapGet (List.map (fun k => (Int.ofNat k, hc)) [m]) i = none
        simp only [List.map_cons, List.map_nil, mapGet]
        rw [if_neg (show ¬ Int.ofNat m = i from fun hc' => h2 hc'.symm)]

theorem canonKey_lt_of_ne (a b : Int) (h : a ≠ b) :
    (canonKey a b).1 < (canonKey a b).2 := by
  unfold canonKey
  by_cases hab : a < b
  · simp [hab]
  · simp only [if_neg hab]
    omega

theorem canonKey_range (n : Int) (a b : Int)
    (ha : 0 ≤ a ∧ a < n) (hb : 0 ≤ b ∧ b < n) :
    0 ≤ (canonKey a b).1 ∧ (canonKey a b).2 < n := by
  unfold canonKey
  by_cases hab : a < b
  · simp only [if_pos hab]; omega
  · simp only [if_neg hab]; omega

/-- The 4-cycle graph of the specification example. -/
def fourCycle : Graph := ⟨4, [(0, 1), (1, 2), (2, 3), (3, 0)]⟩

/-- C1: CompileMIS on a graph without duplicate edges returns an Ising
model with spinCount equal to the vertex count, external field h on every
vertex index, and interaction J under the canonical key of every edge; on
the 4-cycle with h = -1 and J = 2 it yields exactly the model of the
specification example (fields 0..3 ↦ -1, interactions (0,1),(1,2),(2,3),
(0,3) ↦ 2, spin count 4). -/
theorem compileMIS_encoding (g : Graph) (h j : Coeff)
    (hnd : (g.Edges.map (fun e => canonKey e.1 e.2)).Nodup) :
    (CompileMIS g h j).Spins = g.Vertices ∧
    (∀ i : Int, 0 ≤ i → i < g.Vertices →
      mapGet (CompileMIS g h j).ExternalField i = some h) ∧
    (∀ e ∈ g.Edges,
      mapGet (CompileMIS g h j).Interactions (canonKey e.1 e.2) = some j) ∧
    CompileMIS fourCycle (-1) 2 =
      ⟨4, [((0, 1), 2), ((1, 2), 2), ((2, 3), 2), ((0, 3), 2)],
        [(0, -1), (1, -1), (2, -1), (3, -1)]⟩ := by
  have hsome := addEdges_isSome_of_nodup j g.Edges [] hnd
    (fun e _ => rfl)
  rcases Option.isSome_iff_exists.mp hsome with ⟨out, hout⟩
  have hchar := addEdges_eq_append j g.Edges [] out hout
  simp only [List.nil_append] at hchar
  have hmodel : CompileMIS g h j = ⟨g.Vertices, out, mkFields g.Vertices h⟩ := by
    unfold CompileMIS
    rw [hout]
  refine ⟨by rw [hmodel], ?_, ?_, by decide⟩
  · intro i h0 hn
    rw [hmodel]
    show mapGet (mkFields g.Vertices h) i = some h
    unfold mkFields
    rw [mapGet_mkFields]
    rw [if_pos (by constructor <;> omega)]
  · intro e he
    rw [hmodel]
    show mapGet out (canonKey e.1 e.2) = some j
    rw [hchar]
    refine mapGet_eq_some_of_allval _ _ _ ?_ ?_
    · intro p hp
      rcases List.mem_map.mp hp with ⟨e', _, hpe⟩
      simp [hpe.symm]
    · simp only [List.map_map]
      exact List.mem_map.mpr ⟨e, he, rfl⟩

/-- C1 witness: the general theorem applied to the 4-cycle with h = -1,
J = 2 gives the interaction coefficient 2 for the edge (0,1). -/
theorem compileMIS_encoding_witness :
    mapGet (CompileMIS fourCycle (-1) 2).Interactions (canonKey 0 1) = some 2 :=
  (compileMIS_encoding fourCycle (-1) 2 (by decide)).2.2.1 (0, 1) (by decide)

/-- C2 counterexample: on a graph with a duplicated edge, CompileMIS does
not fail with a distinguished EncodingConflict/DuplicateInteraction error;
it returns the zero-valued IsingModel, the very same value an ordinary
(non-failing) call on the empty graph returns, so no error signal reaches
the caller. -/
theorem compileMIS_duplicate_no_error :
    CompileMIS ⟨2, [(0, 1), (0, 1)]⟩ (-1) 2 = CompileMIS ⟨0, []⟩ (-1) 2 := by
  decide

/-- C2 amended: on every graph in which two edges share a canonical
unordered pair, CompileMIS returns the designated empty sentinel model
(zero spins, no fields, no interactions) — the earlier coefficient is not
overwritten and no partially built model escapes — but the sentinel is a
plain IsingModel value, not a distinguished error. -/
theorem compileMIS_duplicate_sentinel (g : Graph) (h j : Coeff)
    (hdup : ¬ (g.Edges.map (fun e => canonKey e.1 e.2)).Nodup) :
    CompileMIS g h j = emptyIsing := by
  unfold CompileMIS
  rw [addEdges_eq_none_of_not_nodup j g.Edges [] hdup]

/-- C2 witness: the amended theorem applied to the concrete graph with the
edge (0,1) duplicated. -/
theorem compileMIS_duplicate_sentinel_witness :
    CompileMIS ⟨2, [(0, 1), (0, 1)]⟩ (-1) 2 = emptyIsing :=
  compileMIS_duplicate_sentinel ⟨2, [(0, 1), (0, 1)]⟩ (-1) 2 (by decide)

/-- C3 counterexample: the edge (5,5) in a 3-vertex graph has equal
endpoints, yet validateGraph reports InvalidEdgeEndpoint, not SelfLoop,
because the range check runs first — refuting the claim that the validator
fails with SelfLoop whenever an edge's two endpoints are equal. -/
theorem validateGraph_selfLoop_shadowed :
    validateGraph ⟨3, [(5, 5)]⟩ =
        Except.error (VError.invalidEdgeEndpoint (5, 5)) ∧
      validateGraph ⟨3, [(5, 5)]⟩ ≠ Except.error (VError.selfLoop (5, 5)) := by
  decide

/-- C3 amended: validateGraph accepts iff the vertex count is positive,
every edge endpoint lies in [0, vertexCount) and no edge has equal
endpoints; it fails with InvalidVertexCount exactly when vertexCount ≤ 0,
an InvalidEdgeEndpoint error names an edge of the graph with an
out-of-range endpoint, and a SelfLoop error names an edge of the graph
whose endpoints are equal and in range (the range check runs first). -/
theorem validateGraph_classification (g : Graph) :
    (validateGraph g = Except.ok () ↔
      0 < g.Vertices ∧
        ∀ e ∈ g.Edges, edgeInRange g.Vertices e ∧ e.1 ≠ e.2) ∧
    (validateGraph g = Except.error VError.invalidVertexCount ↔
      g.Vertices ≤ 0) ∧
    (∀ e, validateGraph g = Except.error (VError.invalidEdgeEndpoint e) →
      e ∈ g.Edges ∧ ¬ edgeInRange g.Vertices e) ∧
    (∀ e, validateGraph g = Except.error (VError.selfLoop e) →
      e ∈ g.Edges ∧ e.1 = e.2 ∧ edgeInRange g.Vertices e) := by
  refine ⟨validateGraph_ok_iff g, ?_, ?_, ?_⟩
  · unfold validateGraph
    by_cases hv : g.Vertices ≤ 0
    · simp [hv]
    · simp only [if_neg hv]
      constructor
      · intro hc
        exact absurd hc (validateEdges_ne_vc g.Vertices g.Edges)
      · intro hc
        omega
  · intro e he
    unfold validateGraph at he
    by_cases hv : g.Vertices ≤ 0
    · rw [if_pos hv] at he
      cases he
    · rw [if_neg hv] at he
      exact validateEdges_endpoint g.Vertices g.Edges e he
  · intro e he
    unfold validateGraph at he
    by_cases hv : g.Vertices ≤ 0
    · rw [if_pos hv] at he
      cases he
    · rw [if_neg hv] at he
      exact validateEdges_selfLoop g.Vertices g.Edges e he

/-- C3 witness: the amended theorem applied to the concrete valid graph
with two vertices and the single edge (0,1). -/
theorem validateGraph_classification_witness :
    validateGraph ⟨2, [(0, 1)]⟩ = Except.ok () :=
  (validateGraph_classification ⟨2, [(0, 1)]⟩).1.mpr (by decide)

/-- C4 counterexample: the failed encode of a duplicate-edge graph returns
the same IsingModel value as the successful encode of the empty
(zero-vertex, edgeless) graph, so a caller cannot distinguish the failed
result from every validly encoded (possibly empty) model. -/
theorem compileMIS_failure_ambiguous :
    CompileMIS ⟨3, [(1, 2), (2, 1)]⟩ (-1) 2 = CompileMIS ⟨0, []⟩ (-1) 2 := by
  decide

/-- C4 amended: on failure the encoder returns the zero-valued sentinel
model rather than no model at all; the sentinel coincides with the
successful encoding of the zero-vertex empty graph, so a failed encode is
distinguishable (by its zero spin count) only from successful encodes of
validator-accepted graphs, whose spin count is positive. -/
theorem compileMIS_failure_distinguishable
    (g₁ g₂ : Graph) (h₁ j₁ h₂ j₂ : Coeff)
    (hok : validateGraph g₁ = Except.ok ())
    (hnd : (g₁.Edges.map (fun e => canonKey e.1 e.2)).Nodup)
    (hdup : ¬ (g₂.Edges.map (fun e => canonKey e.1 e.2)).Nodup) :
    CompileMIS g₁ h₁ j₁ ≠ CompileMIS g₂ h₂ j₂ := by
  intro hc
  have h2 : CompileMIS g₂ h₂ j₂ = emptyIsing := by
    unfold CompileMIS
    rw [addEdges_eq_none_of_not_nodup j₂ g₂.Edges [] hdup]
  have hsome := addEdges_isSome_of_nodup j₁ g₁.Edges [] hnd (fun e _ => rfl)
  rcases Option.isSome_iff_exists.mp hsome with ⟨out, hout⟩
  have h1 : (CompileMIS g₁ h₁ j₁).Spins = g₁.Vertices := by
    unfold CompileMIS
    rw [hout]
  have hpos := ((validateGraph_ok_iff g₁).mp hok).1
  rw [hc, h2] at h1
  simp only [emptyIsing] at h1
  omega

/-- C4 witness: the amended theorem applied to the validated path graph on
two vertices against the duplicate-edge graph. -/
theorem compileMIS_failure_distinguishable_witness :
    CompileMIS ⟨2, [(0, 1)]⟩ (-1) 2 ≠ CompileMIS ⟨3, [(1, 2), (2, 1)]⟩ (-1) 2 :=
  compileMIS_failure_distinguishable ⟨2, [(0, 1)]⟩ ⟨3, [(1, 2), (2, 1)]⟩
    (-1) 2 (-1) 2 (by decide) (by decide) (by decide)

/-- C10: for every validator-accepted graph and all parameters, the model
CompileMIS returns is well-formed — every external-field key lies in
[0, Spins), every interaction key (a,b) satisfies 0 ≤ a < b < Spins, and
interaction keys are pairwise distinct — in the success branch and in the
error-sentinel branch alike (the sentinel is empty, so its conditions hold
vacuously). -/
theorem compileMIS_wellformed (g : Graph) (h j : Coeff)
    (hv : validateGraph g = Except.ok ()) :
    (∀ p ∈ (CompileMIS g h j).ExternalField,
      0 ≤ p.1 ∧ p.1 < (CompileMIS g h j).Spins) ∧
    (∀ q ∈ (CompileMIS g h j).Interactions,
      0 ≤ q.1.1 ∧ q.1.1 < q.1.2 ∧ q.1.2 < (CompileMIS g h j).Spins) ∧
    ((CompileMIS g h j).Interactions.map Prod.fst).Nodup := by
  have hval := (validateGraph_ok_iff g).mp hv
  cases hout : addEdges j g.Edges [] with
  | none =>
    unfold CompileMIS
    rw [hout]
    simp [emptyIsing]
  | some out =>
    have hchar := addEdges_eq_append j g.Edges [] out hout
    simp only [List.nil_append] at hchar
    have hnd := (addEdges_some_nodup j g.Edges [] out hout).1
    have hmodel : CompileMIS g h j =
        ⟨g.Vertices, out, mkFields g.Vertices h⟩ := by
      unfold CompileMIS
      rw [hout]
    rw [hmodel]
    refine ⟨?_, ?_, ?_⟩
    · intro p hp
      show 0 ≤ p.1 ∧ p.1 < g.Vertices
      unfold mkFields at hp
      rcases List.mem_map.mp hp with ⟨m, hm, hpm⟩
      rw [List.mem_range] at hm
      rw [← hpm]
      constructor
      · exact Int.ofNat_nonneg m
      · have hlt : (m : Int) < g.Vertices := by omega
        exact hlt
    · intro q hq
      show 0 ≤ q.1.1 ∧ q.1.1 < q.1.2 ∧ q.1.2 < g.Vertices
      rw [hchar] at hq
      rcases List.mem_map.mp hq with ⟨e, he, hqe⟩
      have hr := (hval.2 e he).1
      have hne := (hval.2 e he).2
      unfold edgeInRange at hr
      have hlt := canonKey_lt_of_ne e.1 e.2 hne
      have hrange := canonKey_range g.Vertices e.1 e.2
        ⟨hr.1, hr.2.1⟩ ⟨hr.2.2.1, hr.2.2.2⟩
      rw [← hqe]
      exact ⟨hrange.1, hlt, hrange.2⟩
    · show ((out.map Prod.fst) : List (Int × Int)).Nodup
      rw [hchar]
      simpa [List.map_map, Function.comp] using hnd

/-- C10 witness: the well-formedness theorem applied to the validated
4-cycle example graph. -/
theorem compileMIS_wellformed_witness :
    ((CompileMIS fourCycle (-1) 2).Interactions.map Prod.fst).Nodup :=
  (compileMIS_wellformed fourCycle (-1) 2 (by decide)).2.2

/-- Decimal digit character for a value below ten. -/
def toDigitChar : Nat → Char
  | 0 => '0'
  | 1 => '1'
  | 2 => '2'
  | 3 => '3'
  | 4 => '4'
  | 5 => '5'
  | 6 => '6'
  | 7 => '7'
  | 8 => '8'
  | _ => '9'

/-- Value of a decimal digit character (code points 48-57), none for any
other character. -/
def digitVal? (c : Char) : Option Nat :=
  if 48 ≤ c.toNat ∧ c.toNat ≤ 57 then some (c.toNat - 48) else none

/-- Decimal rendering of a natural number, most significant digit first
(the number-to-string conversion of the wire formats). -/
def natToDigitsAux (n : Nat) (acc : List Char) : List Char :=
  if n < 10 then toDigitChar n :: acc
  else natToDigitsAux (n / 10) (toDigitChar (n % 10) :: acc)
termination_by n
decreasing_by exact Nat.div_lt_self (by omega) (by omega)

/-- Decimal string (as a character list) of a natural number. -/
def natToString (n : Nat) : List Char := natToDigitsAux n []

/-- Fold a digit string into a value, failing on a non-digit. -/
def digitsToNatAux : List Char → Nat → Option Nat
  | [], a => some a
  | c :: cs, a =>
    match digitVal? c with
    | some d => digitsToNatAux cs (a * 10 + d)
    | none => none

/-- Parse a non-empty decimal string. -/
def digitsToNat? (cs : List Char) : Option Nat :=
  if cs.isEmpty then none else digitsToNatAux cs 0

theorem digitVal_toDigitChar (d : Nat) (hd : d < 10) :
    digitVal? (toDigitChar d) = some d := by
  interval_cases d <;> rfl

theorem natToDigitsAux_append (n : Nat) :
    ∀ acc, natToDigitsAux n acc = natToDigitsAux n [] ++ acc := by
  induction n using Nat.strong_induction_on with
  | _ n ih =>
    intro acc
    by_cases h : n < 10
    · rw [natToDigitsAux, if_pos h]
      conv_rhs => rw [natToDigitsAux, if_pos h]
      simp
    · have hd : n / 10 < n := Nat.div_lt_self (by omega) (by omega)
      rw [natToDigitsAux, if_neg h, ih _ hd]
      conv_rhs => rw [natToDigitsAux, if_neg h, ih _ hd]
      simp

theorem digitsToNatAux_append (xs ys : List Char) :
    ∀ a, digitsToNatAux (xs ++ ys) a =
      (digitsToNatAux xs a).bind (fun v => digitsToNatAux ys v) := by
  induction xs with
  | nil => intro a; rfl
  | cons c cs ih =>
    intro a
    simp only [List.cons_append, digitsToNatAux]
    cases hv : digitVal? c with
    | none => rfl
    | some d => exact ih _

theorem digitsToNatAux_natToDigits (n : Nat) :
    ∀ a, digitsToNatAux (natToDigitsAux n []) a =
      some (a * 10 ^ (natToDigitsAux n []).length + n) := by
  induction n using Nat.strong_induction_on with
  | _ n ih =>
    intro a
    rw [natToDigitsAux]
    by_cases h : n < 10
    · simp only [if_pos h, digitsToNatAux, digitVal_toDigitChar n h,
        List.length_singleton, pow_one]
    · have hd : n / 10 < n := Nat.div_lt_self (by omega) (by omega)
      simp only [if_neg h]
      rw [natToDigitsAux_append, digitsToNatAux_append, ih _ hd]
      simp only [Option.bind_some, digitsToNatAux,
        digitVal_toDigitChar (n % 10) (Nat.mod_lt n (by omega)),
        List.length_append, List.length_singleton]
      show some ((a * 10 ^ (natToDigitsAux (n / 10) []).length + n / 10) * 10
          + n % 10) =
        some (a * 10 ^ ((natToDigitsAux (n / 10) []).length + 1) + n)
      congr 1
      have hdm := Nat.div_add_mod n 10
      calc (a * 10 ^ (natToDigitsAux (n / 10) []).length + n / 10) * 10 + n % 10
          = a * (10 ^ (natToDigitsAux (n / 10) []).length * 10) +
              (10 * (n / 10) + n % 10) := by ring
        _ = a * 10 ^ ((natToDigitsAux (n / 10) []).length + 1) + n := by
            rw [hdm, pow_succ]

theorem natToDigits_ne_nil (n : Nat) : natToDigitsAux n [] ≠ [] := by
  rw [natToDigitsAux]
  by_cases h : n < 10
  · simp [h]
  · simp only [if_neg h]
    rw [natToDigitsAux_append]
    simp

theorem natToDigits_all_digits (n : Nat) :
    ∀ c ∈ natToDigitsAux n [], (digitVal? c).isSome := by
  induction n using Nat.strong_induction_on with
  | _ n ih =>
    rw [natToDigitsAux]
    by_cases h : n < 10
    · simp only [if_pos h, List.mem_singleton]
      intro c hc
      rw [hc, digitVal_toDigitChar n h]
      rfl
    · have hd : n / 10 < n := Nat.div_lt_self (by omega) (by omega)
      simp only [if_neg h]
      rw [natToDigitsAux_append]
      intro c hc
      rcases List.mem_append.mp hc with hc | hc
      · exact ih _ hd c hc
      · simp only [List.mem_singleton] at hc
        rw [hc, digitVal_toDigitChar (n % 10) (Nat.mod_lt n (by omega))]
        rfl

theorem digitsToNat_natToString (n : Nat) :
    digitsToNat? (natToString n) = some n := by
  unfold digitsToNat? natToString
  rw [if_neg (by simp [List.isEmpty_iff, natToDigits_ne_nil n])]
  simpa using digitsToNatAux_natToDigits n 0

/-- Split a character list at the first comma. -/
def splitComma : List Char → Option (List Char × List Char)
  | [] => none
  | c :: cs =>
    if c = ',' then some ([], cs)
    else
      match splitComma cs with
      | some p => some (c :: p.1, p.2)
      | none => none

theorem splitComma_append (xs ys : List Char) (hx : ∀ c ∈ xs, c ≠ ',') :
    splitComma (xs ++ ',' :: ys) = some (xs, ys) := by
  induction xs with
  | nil => simp [splitComma]
  | cons c cs ih =>
    have hc := hx c (by simp)
    have ih' : splitComma (List.append cs (',' :: ys)) = some (cs, ys) :=
      ih (fun c' h' => hx c' (by simp [h']))
    simp only [List.cons_append, splitComma, if_neg hc, ih']

theorem natToString_no_comma (n : Nat) : ∀ c ∈ natToString n, c ≠ ',' := by
  intro c hc hcomma
  have := natToDigits_all_digits n c hc
  rw [hcomma, show digitVal? ',' = none from by decide] at this
  simp at this

/-- Composite wire key "i,j" of the coefficient format. -/
def pairKey (a b : Nat) : List Char := natToString a ++ ',' :: natToString b

/-- Parse a composite "i,j" wire key. -/
def parsePairKey (cs : List Char) : Option (Nat × Nat) :=
  match splitComma cs with
  | some p =>
    match digitsToNat? p.1, digitsToNat? p.2 with
    | some a, some b => some (a, b)
    | _, _ => none
  | none => none

theorem parsePairKey_pairKey (a b : Nat) :
    parsePairKey (pairKey a b) = some (a, b) := by
  unfold parsePairKey pairKey
  rw [splitComma_append _ _ (natToString_no_comma a)]
  simp [digitsToNat_natToString]

/-- Coefficient wire object of the hardware-facing format: h keyed by the
stringified spin index, J keyed by the "i,j" composite string. -/
structure WireCoeffs where
  h : List (List Char × Coeff)
  J : List (List Char × Coeff)
  deriving DecidableEq

/-- Modelled from the spec: the repository has no serializer producing the
documented h/J string-keyed coefficient object (main.go only marshals the
raw Go struct); this follows the wire format of §6 of the specification:
h maps the stringified spin index to its field, J maps the canonical
"i,j" string (i < j) to its coupling. -/
def serializeIsing (m : IsingModel) : WireCoeffs :=
  ⟨m.ExternalField.map (fun p => (natToString p.1.toNat, p.2)),
   m.Interactions.map (fun q => (pairKey q.1.1.toNat q.1.2.toNat, q.2))⟩

/-- Parse back the h entries of the wire object. -/
def parseFields : List (List Char × Coeff) → Option (List (Int × Coeff))
  | [] => some []
  | p :: rest =>
    match digitsToNat? p.1, parseFields rest with
    | some n, some r => some ((Int.ofNat n, p.2) :: r)
    | _, _ => none

/-- Parse back the J entries of the wire object. -/
def parseInteractions :
    List (List Char × Coeff) → Option (List ((Int × Int) × Coeff))
  | [] => some []
  | p :: rest =>
    match parsePairKey p.1, parseInteractions rest with
    | some ab, some r => some (((Int.ofNat ab.1, Int.ofNat ab.2), p.2) :: r)
    | _, _ => none

/-- Modelled from the spec: the repository has no parser of the documented
coefficient object; this inverts serializeIsing, recovering the spin count
as the number of h entries (the encoder emits exactly one field entry per
spin). -/
def parseIsing (w : WireCoeffs) : Option IsingModel :=
  match parseFields w.h, parseInteractions w.J with
  | some f, some i => some ⟨Int.ofNat f.length, i, f⟩
  | _, _ => none

theorem parseFields_serialize (l : List (Int × Coeff))
    (hl : ∀ p ∈ l, 0 ≤ p.1) :
    parseFields (l.map (fun p => (natToString p.1.toNat, p.2))) = some l := by
  induction l with
  | nil => rfl
  | cons p rest ih =>
    simp only [List.map_cons, parseFields, digitsToNat_natToString,
      ih (fun q hq => hl q (by simp [hq]))]
    have h0 := hl p (by simp)
    have hcast : Int.ofNat p.1.toNat = p.1 := Int.toNat_of_nonneg h0
    rw [hcast, Prod.mk.eta]

theorem parseInteractions_serialize (l : List ((Int × Int) × Coeff))
    (hl : ∀ q ∈ l, 0 ≤ q.1.1 ∧ 0 ≤ q.1.2) :
    parseInteractions
      (l.map (fun q => (pairKey q.1.1.toNat q.1.2.toNat, q.2))) = some l := by
  induction l with
  | nil => rfl
  | cons q rest ih =>
    simp only [List.map_cons, parseInteractions, parsePairKey_pairKey,
      ih (fun q' hq' => hl q' (by simp [hq']))]
    have h0 := hl q (by simp)
    have h1 : Int.ofNat q.1.1.toNat = q.1.1 := Int.toNat_of_nonneg h0.1
    have h2 : Int.ofNat q.1.2.toNat = q.1.2 := Int.toNat_of_nonneg h0.2
    rw [h1, h2]

/-- C5: serializing an encoder-produced IsingModel to the coefficient wire
format (h keyed by stringified spin index, J keyed by "i,j" with i < j)
and parsing it back yields a model with the same spin count, the same
field entries and the same interaction entries — for every
validator-accepted graph and all parameters, including the duplicate-edge
sentinel branch. -/
theorem wire_roundtrip (g : Graph) (h j : Coeff)
    (hv : validateGraph g = Except.ok ()) :
    parseIsing (serializeIsing (CompileMIS g h j)) = some (CompileMIS g h j) := by
  have hval := (validateGraph_ok_iff g).mp hv
  cases hout : addEdges j g.Edges [] with
  | none =>
    have hm : CompileMIS g h j = emptyIsing := by
      unfold CompileMIS
      rw [hout]
    rw [hm]
    rfl
  | some out =>
    have hchar := addEdges_eq_append j g.Edges [] out hout
    simp only [List.nil_append] at hchar
    have hmodel : CompileMIS g h j =
        ⟨g.Vertices, out, mkFields g.Vertices h⟩ := by
      unfold CompileMIS
      rw [hout]
    rw [hmodel]
    have hf : parseFields ((mkFields g.Vertices h).map
        (fun p => (natToString p.1.toNat, p.2))) =
        some (mkFields g.Vertices h) := by
      refine parseFields_serialize _ ?_
      intro p hp
      unfold mkFields at hp
      rcases List.mem_map.mp hp with ⟨m, _, hpm⟩
      rw [← hpm]
      exact Int.ofNat_nonneg m
    have hi : parseInteractions (out.map
        (fun q => (pairKey q.1.1.toNat q.1.2.toNat, q.2))) = some out := by
      refine parseInteractions_serialize _ ?_
      intro q hq
      rw [hchar] at hq
      rcases List.mem_map.mp hq with ⟨e, he, hqe⟩
      have hr := (hval.2 e he).1
      unfold edgeInRange at hr
      have := canonKey_range g.Vertices e.1 e.2 ⟨hr.1, hr.2.1⟩
        ⟨hr.2.2.1, hr.2.2.2⟩
      have hlt := canonKey_lt_of_ne e.1 e.2 (hval.2 e he).2
      rw [← hqe]
      exact ⟨this.1, show (0 : Int) ≤ (canonKey e.1 e.2).2 by omega⟩
    simp only [serializeIsing, parseIsing, hf, hi, Option.some.injEq]
    have hlen : (mkFields g.Vertices h).length = g.Vertices.toNat := by
      unfold mkFields
      simp
    congr 1
    rw [hlen]
    exact Int.toNat_of_nonneg (by omega)

/-- C5 witness: the round-trip theorem applied to the 4-cycle example. -/
theorem wire_roundtrip_witness :
    parseIsing (serializeIsing (CompileMIS fourCycle (-1) 2)) =
      some (CompileMIS fourCycle (-1) 2) :=
  wire_roundtrip fourCycle (-1) 2 (by decide)

/-- Decimal rendering of a Go int (fmt %d). -/
def intToString (i : Int) : List Char :=
  if i < 0 then '-' :: natToString (-i).toNat else natToString i.toNat

/-- Outcome of the collaborator-owned file read and JSON parse of one
batch instance (readGraphFromJSON); the I/O itself is out of scope. -/
inductive ReadOutcome where
  | failure : ReadOutcome
  | graph : Graph → ReadOutcome
  deriving DecidableEq

/-- One batch instance: its source file path and its read outcome. -/
structure BatchInstance where
  path : List Char
  read : ReadOutcome
  deriving DecidableEq

/-- ProcessingResult of cmd/compiler/main.go: a failure carries FilePath
and a non-nil Error; a success carries FilePath and the compiled model. -/
inductive PResult where
  | failed : List Char → PResult
  | compiled : List Char → IsingModel → PResult
  deriving DecidableEq

/-- Per-instance behaviour of the pipeline stages processGraphs and
compileGraphs (main.go lines 112-138): a read or validation failure
yields a failure result tagged with the instance's file path; a validated
graph is compiled and tagged "graph_%d" of its vertex count, because the
file path is not carried across the graph channel. -/
def processInstance (h j : Coeff) (inst : BatchInstance) : PResult :=
  match inst.read with
  | ReadOutcome.failure => PResult.failed inst.path
  | ReadOutcome.graph g =>
    match validateGraph g with
    | Except.error _ => PResult.failed inst.path
    | Except.ok _ =>
      PResult.compiled
        (['g', 'r', 'a', 'p', 'h', '_'] ++ intToString g.Vertices)
        (CompileMIS g h j)

/-- The batch pipeline over a list of instances: every instance flows
through to exactly one result; the channels only reorder arrivals, never
the per-instance outcome. -/
def compilePipeline (h j : Coeff) (insts : List BatchInstance) :
    List PResult :=
  insts.map (processInstance h j)

/-- Whether a result is a failure (Error field non-nil). -/
def isFailed : PResult → Bool
  | PResult.failed _ => true
  | PResult.compiled _ _ => false

/-- Source path "a.json" of the valid batch instance. -/
def pathA : List Char := ['a', '.', 'j', 's', 'o', 'n']

/-- Source path "b.json" of the invalid batch instance. -/
def pathB : List Char := ['b', '.', 'j', 's', 'o', 'n']

/-- A two-instance batch: a.json holds a valid two-vertex graph, b.json a
structurally invalid zero-vertex graph. -/
def batchTwo : List BatchInstance :=
  [⟨pathA, ReadOutcome.graph ⟨2, [(0, 1)]⟩⟩,
   ⟨pathB, ReadOutcome.graph ⟨0, []⟩⟩]

/-- C6: the pipeline always produces one result per instance, and on the
two-instance batch with exactly one invalid instance it produces exactly
one failure (tagged b.json) and one compiled result — but the compiled
result is tagged "graph_2", the vertex-count placeholder, not its source
path a.json: compileGraphs drops the originating file path. -/
theorem pipeline_tag_bug :
    (∀ (h j : Coeff) (insts : List BatchInstance),
      (compilePipeline h j insts).length = insts.length) ∧
    compilePipeline (-1) 2 batchTwo =
      [PResult.compiled ['g', 'r', 'a', 'p', 'h', '_', '2']
          ⟨2, [((0, 1), 2)], [(0, -1), (1, -1)]⟩,
        PResult.failed pathB] ∧
    (compilePipeline (-1) 2 batchTwo).filter isFailed =
      [PResult.failed pathB] ∧
    (['g', 'r', 'a', 'p', 'h', '_', '2'] : List Char) ≠ pathA := by
  have hint : intToString 2 = ['2'] := by
    rw [intToString, if_neg (by omega)]
    show natToDigitsAux 2 [] = ['2']
    rw [natToDigitsAux]
    rfl
  have hpipe : compilePipeline (-1) 2 batchTwo =
      [PResult.compiled (['g', 'r', 'a', 'p', 'h', '_'] ++ intToString 2)
          ⟨2, [((0, 1), 2)], [(0, -1), (1, -1)]⟩,
        PResult.failed pathB] := by
    rfl
  refine ⟨fun h j insts => List.length_map insts (processInstance h j),
    ?_, ?_, by decide⟩
  · rw [hpipe, hint]
    rfl
  · rw [hpipe]
    rfl

/-- Weighted graph of the Max-Cut encoder of specification §4.2: vertex
count and weighted edges (i, j, w). -/
structure WGraph where
  Vertices : Int
  Edges : List (Int × Int × Coeff)
  deriving DecidableEq

/-- Modelled from the spec: the repository contains no Max-Cut encoder;
following §4.2, each weighted edge (i,j,w) contributes the interaction
-w under the canonical key, with the shared duplicate-canonical-key hard
error of the encoder family. -/
def addWeightedEdges :
    List (Int × Int × Coeff) → List ((Int × Int) × Coeff) →
    Option (List ((Int × Int) × Coeff))
  | [], acc => some acc
  | e :: rest, acc =>
    let key := canonKey e.1 e.2.1
    if (mapGet acc key).isSome then none
    else addWeightedEdges rest (acc ++ [(key, -e.2.2)])

/-- Modelled from the spec: the Max-Cut encoder of §4.2 — spinCount =
vertexCount, no fields, interactions[canon(i,j)] = -w for every weighted
edge, failure on a duplicated canonical key. -/
def CompileMaxCut (g : WGraph) : Option IsingModel :=
  match addWeightedEdges g.Edges [] with
  | none => none
  | some inter => some ⟨g.Vertices, inter, []⟩

theorem addWeightedEdges_eq_append (es : List (Int × Int × Coeff))
    (acc out : List ((Int × Int) × Coeff))
    (h : addWeightedEdges es acc = some out) :
    out = acc ++ es.map (fun e => (canonKey e.1 e.2.1, -e.2.2)) := by
  induction es generalizing acc with
  | nil =>
    simp only [addWeightedEdges, Option.some.injEq] at h
    simp [h.symm]
  | cons e rest ih =>
    simp only [addWeightedEdges] at h
    by_cases hg : (mapGet acc (canonKey e.1 e.2.1)).isSome
    · simp [hg] at h
    · simp only [hg, if_false, Bool.false_eq_true] at h
      have := ih _ h
      simp [this]

theorem addWeightedEdges_isSome_of_nodup (es : List (Int × Int × Coeff))
    (acc : List ((Int × Int) × Coeff))
    (hnd : (es.map (fun e => canonKey e.1 e.2.1)).Nodup)
    (hdisj : ∀ e ∈ es, mapGet acc (canonKey e.1 e.2.1) = none) :
    (addWeightedEdges es acc).isSome := by
  induction es generalizing acc with
  | nil => simp [addWeightedEdges]
  | cons e rest ih =>
    simp only [List.map_cons, List.nodup_cons] at hnd
    have hnone := hdisj e (by simp)
    simp only [addWeightedEdges, hnone, Option.isSome_none,
      Bool.false_eq_true, if_false]
    refine ih _ hnd.2 ?_
    intro e' he'
    rw [mapGet_eq_none_iff]
    have hold := hdisj e' (by simp [he'])
    rw [mapGet_eq_none_iff] at hold
    intro hc
    simp only [List.map_append, List.mem_append] at hc
    rcases hc with hc | hc
    · exact hold hc
    · simp only [List.map_cons, List.map_nil, List.mem_singleton] at hc
      exact hnd.1 (hc ▸ List.mem_map.mpr ⟨e', he', rfl⟩)

theorem mapGet_eq_some_of_nodup {κ α : Type} [DecidableEq κ]
    (l : List (κ × α)) (k : κ) (v : α)
    (hnd : (l.map Prod.fst).Nodup) (hmem : (k, v) ∈ l) :
    mapGet l k = some v := by
  induction l with
  | nil => simp at hmem
  | cons p ps ih =>
    simp only [List.map_cons, List.nodup_cons] at hnd
    rcases List.mem_cons.mp hmem with hmem | hmem
    · rw [← hmem]
      simp [mapGet]
    · have hk : p.1 ≠ k := by
        intro hc
        exact hnd.1 (hc ▸ List.mem_map.mpr ⟨(k, v), hmem, rfl⟩)
      simp [mapGet, hk, ih hnd.2 hmem]

/-- C7: the Max-Cut encoder (modelled from the spec; the repository has
no Max-Cut code) maps a duplicate-free weighted graph to a model with
spinCount = vertexCount, no fields, and interaction -w under the
canonical key of every weighted edge (i,j,w); the single edge (0,1) of
weight 3 encodes to spin count 2, fields empty and interactions
(0,1) ↦ -3. -/
theorem maxcut_encoding (g : WGraph)
    (hnd : (g.Edges.map (fun e => canonKey e.1 e.2.1)).Nodup) :
    (∃ m, CompileMaxCut g = some m ∧
      m.Spins = g.Vertices ∧
      m.ExternalField = [] ∧
      ∀ e ∈ g.Edges,
        mapGet m.Interactions (canonKey e.1 e.2.1) = some (-e.2.2)) ∧
    CompileMaxCut ⟨2, [(0, 1, 3)]⟩ = some ⟨2, [((0, 1), -3)], []⟩ := by
  have hsome := addWeightedEdges_isSome_of_nodup g.Edges [] hnd
    (fun e _ => rfl)
  rcases Option.isSome_iff_exists.mp hsome with ⟨out, hout⟩
  have hchar := addWeightedEdges_eq_append g.Edges [] out hout
  simp only [List.nil_append] at hchar
  constructor
  · refine ⟨⟨g.Vertices, out, []⟩, ?_, rfl, rfl, ?_⟩
    · unfold CompileMaxCut
      rw [hout]
    · intro e he
      show mapGet out (canonKey e.1 e.2.1) = some (-e.2.2)
      rw [hchar]
      refine mapGet_eq_some_of_nodup _ _ _ ?_ ?_
      · simpa [List.map_map, Function.comp] using hnd
      · exact List.mem_map.mpr ⟨e, he, rfl⟩
  · decide

/-- C7 witness: the Max-Cut theorem applied to the single-edge example
graph yields the documented concrete encoding. -/
theorem maxcut_encoding_witness :
    CompileMaxCut ⟨2, [(0, 1, 3)]⟩ = some ⟨2, [((0, 1), -3)], []⟩ :=
  (maxcut_encoding ⟨2, [(0, 1, 3)]⟩ (by decide)).2

/-- JavaScript object assignment J[key] = v: replace the value at the key
or append a new entry. -/
def objSet (m : List (List Char × Coeff)) (k : List Char) (v : Coeff) :
    List (List Char × Coeff) :=
  match m with
  | [] => [(k, v)]
  | p :: ps => if p.1 = k then (k, v) :: ps else p :: objSet ps k v

/-- Sequential object assignments of one value along a list of keys — the
shape of every loop nest in generateJSON. -/
def objSetAll (keys : List (List Char)) (v : Coeff)
    (m : List (List Char × Coeff)) : List (List Char × Coeff) :=
  match keys with
  | [] => m
  | k :: ks => objSetAll ks v (objSet m k v)

theorem mapGet_objSet_self (m : List (List Char × Coeff)) (k : List Char)
    (v : Coeff) : mapGet (objSet m k v) k = some v := by
  induction m with
  | nil => simp [objSet, mapGet]
  | cons p ps ih =>
    by_cases h : p.1 = k
    · simp [objSet, h, mapGet]
    · simp [objSet, h, mapGet, ih]

theorem mapGet_objSet_ne (m : List (List Char × Coeff)) (k k' : List Char)
    (v : Coeff) (h : k' ≠ k) :
    mapGet (objSet m k v) k' = mapGet m k' := by
  induction m with
  | nil =>
    simp only [objSet, mapGet]
    rw [if_neg (fun hc => h hc.symm)]
  | cons p ps ih =>
    by_cases hp : p.1 = k
    · simp only [objSet, if_pos hp, mapGet]
      rw [if_neg (fun hc => h hc.symm), if_neg (by rw [hp]; exact fun hc => h hc.symm)]
    · simp only [objSet, if_neg hp, mapGet, ih]

theorem mapGet_objSetAll (ks : List (List Char)) (v : Coeff)
    (m : List (List Char × Coeff)) (k : List Char) :
    mapGet (objSetAll ks v m) k = if k ∈ ks then some v else mapGet m k := by
  induction ks generalizing m with
  | nil => simp [objSetAll]
  | cons k' ks ih =>
    simp only [objSetAll]
    rw [ih]
    by_cases hk : k ∈ ks
    · rw [if_pos hk, if_pos (by simp [hk])]
    · rw [if_neg hk]
      by_cases he : k = k'
      · rw [he, if_pos (by simp), mapGet_objSet_self]
      · rw [if_neg (by simp [he, hk]), mapGet_objSet_ne _ _ _ _ he]

/-- Qubit key template v_c of generateJSON (App.svelte). -/
def qubitKey (v c : Nat) : List Char :=
  natToString v ++ '_' :: natToString c

/-- Adjacency penalty key template from_c,to_c of generateJSON. -/
def adjKey (e : Int × Int) (c : Nat) : List Char :=
  intToString e.1 ++ '_' :: natToString c ++
    ',' :: intToString e.2 ++ '_' :: natToString c

/-- One-hot penalty key template v_c1,v_c2 of generateJSON. -/
def onehotKey (v c1 c2 : Nat) : List Char :=
  natToString v ++ '_' :: natToString c1 ++
    ',' :: natToString v ++ '_' :: natToString c2

/-- generateJSON from frontend/src/App.svelte: builds the h object giving
every vertex-color qubit the field -1, and the J object with the value-1
adjacency entries (per edge and color) followed by the value-1 one-hot
entries (per vertex and ordered color pair c1 < c2); loops over vertices
and colors run from 0 and are empty for non-positive bounds. -/
def generateJSON (numVertices numColors : Int) (edges : List (Int × Int)) :
    List (List Char × Coeff) × List (List Char × Coeff) :=
  let colorList := List.range numColors.toNat
  let vertexList := List.range numVertices.toNat
  let h := objSetAll
    (vertexList.flatMap (fun v => colorList.map (fun c => qubitKey v c)))
    (-1) []
  let jAdj := objSetAll
    (edges.flatMap (fun e => colorList.map (fun c => adjKey e c))) 1 []
  let j := objSetAll
    (vertexList.flatMap (fun v => colorList.flatMap (fun c1 =>
      (colorList.filter (fun c2 => c1 < c2)).map
        (fun c2 => onehotKey v c1 c2)))) 1 jAdj
  (h, j)

/-- C8 counterexample: with colorCount 0 (≤ 0), generateJSON does not
fail with InvalidColorCount — it returns the ordinary pair of empty h and
J objects, as every loop body runs zero times. -/
theorem generateJSON_zero_colors :
    generateJSON 2 0 [(0, 1)] = ([], []) := by
  rfl

/-- C8 amended: the k-coloring encoder keys one qubit per (vertex, color)
pair by the string v_c (it computes no integer spin index and no
spinCount), gives every such qubit the field -1, writes the positive
adjacency penalty 1 under from_c,to_c for every edge and in-range color,
and the positive one-hot penalty 1 under v_c1,v_c2 for every vertex and
color pair c1 < c2; for colorCount ≤ 0 it returns empty h and J objects
instead of failing. -/
theorem generateJSON_structure (V K : Int) (es : List (Int × Int)) :
    (K ≤ 0 → generateJSON V K es = ([], [])) ∧
    (∀ v c : Nat, (v : Int) < V → (c : Int) < K →
      mapGet (generateJSON V K es).1 (qubitKey v c) = some (-1)) ∧
    (∀ e ∈ es, ∀ c : Nat, (c : Int) < K →
      mapGet (generateJSON V K es).2 (adjKey e c) = some 1) ∧
    (∀ v c1 c2 : Nat, (v : Int) < V → c1 < c2 → (c2 : Int) < K →
      mapGet (generateJSON V K es).2 (onehotKey v c1 c2) = some 1) := by
  have hnilmap : ∀ {α : Type} (l : List α),
      l.flatMap (fun _ => ([] : List (List Char))) = [] := by
    intro α l
    induction l with
    | nil => rfl
    | cons x xs ih => simp [ih]
  refine ⟨?_, ?_, ?_, ?_⟩
  · intro hk
    have h0 : K.toNat = 0 := by omega
    simp [generateJSON, h0, hnilmap, objSetAll]
  · intro v c hv hc
    have hvm : v ∈ List.range V.toNat := by
      rw [List.mem_range]
      omega
    have hcm : c ∈ List.range K.toNat := by
      rw [List.mem_range]
      omega
    show mapGet (objSetAll _ (-1) []) (qubitKey v c) = some (-1)
    rw [mapGet_objSetAll]
    rw [if_pos (List.mem_flatMap.mpr ⟨v, hvm,
      List.mem_map.mpr ⟨c, hcm, rfl⟩⟩)]
  · intro e he c hc
    have hcm : c ∈ List.range K.toNat := by
      rw [List.mem_range]
      omega
    show mapGet (objSetAll _ 1 (objSetAll _ 1 [])) (adjKey e c) = some 1
    rw [mapGet_objSetAll]
    by_cases hmem : adjKey e c ∈
        (List.range V.toNat).flatMap (fun v => (List.range K.toNat).flatMap
          (fun c1 => ((List.range K.toNat).filter (fun c2 => c1 < c2)).map
            (fun c2 => onehotKey v c1 c2)))
    · rw [if_pos hmem]
    · rw [if_neg hmem, mapGet_objSetAll]
      rw [if_pos (List.mem_flatMap.mpr ⟨e, he,
        List.mem_map.mpr ⟨c, hcm, rfl⟩⟩)]
  · intro v c1 c2 hv h12 hc2
    have hvm : v ∈ List.range V.toNat := by
      rw [List.mem_range]
      omega
    have hc1m : c1 ∈ List.range K.toNat := by
      rw [List.mem_range]
      omega
    have hc2m : c2 ∈ (List.range K.toNat).filter (fun c2 => c1 < c2) := by
      rw [List.mem_filter]
      refine ⟨by rw [List.mem_range]; omega, by simpa using h12⟩
    show mapGet (objSetAll _ 1 (objSetAll _ 1 []))
      (onehotKey v c1 c2) = some 1
    rw [mapGet_objSetAll]
    rw [if_pos (List.mem_flatMap.mpr ⟨v, hvm, List.mem_flatMap.mpr ⟨c1, hc1m,
      List.mem_map.mpr ⟨c2, hc2m, rfl⟩⟩⟩)]

/-- C8 witness: the amended theorem applied to the 2-vertex, 2-color
graph with the edge (0,1) gives the adjacency penalty entry for color 0. -/
theorem generateJSON_structure_witness :
    mapGet (generateJSON 2 2 [(0, 1)]).2 (adjKey (0, 1) 0) = some 1 :=
  (generateJSON_structure 2 2 [(0, 1)]).2.2.1 (0, 1) (by decide) 0 (by decide)

/-- Waveform from pkg/utils/helpers.go: tagged shape with duration and
shape-specific parameters (float32 levels and area modelled as Coeff). -/
structure Waveform where
  type : List Char
  Duration : Int
  Start : Coeff
  Stop : Coeff
  Area : Coeff
  deriving DecidableEq

/-- Pulse from pkg/utils/helpers.go: channel reference, amplitude and
detuning waveforms, phase. -/
structure Pulse where
  Channel : List Char
  Amplitude : Waveform
  Detuning : Waveform
  Phase : Coeff
  deriving DecidableEq

/-- Channel declaration from pkg/utils/helpers.go. -/
structure Channel where
  type : List Char
  deriving DecidableEq

/-- Register from pkg/utils/helpers.go: qubit labels with positions. -/
structure Register where
  Positions : List (List Char × List Coeff)
  deriving DecidableEq

/-- SequenceBuilder from pkg/utils/helpers.go: channel declarations,
pulse list and register. -/
structure SequenceBuilder where
  Channels : List (List Char × Channel)
  Pulses : List Pulse
  Register : Register
  deriving DecidableEq

/-- The fixed channel map of CreateSimplePulserSequence: ch0 of type
rydberg_global. -/
def simpleChannels : List (List Char × Channel) :=
  [(['c', 'h', '0'],
    ⟨['r', 'y', 'd', 'b', 'e', 'r', 'g', '_',
      'g', 'l', 'o', 'b', 'a', 'l']⟩)]

/-- The fixed pulse of CreateSimplePulserSequence: Blackman amplitude of
duration 1000 and area ≈ π, ramp detuning from -5 to 5, phase 0. -/
def simplePulse : Pulse :=
  ⟨['c', 'h', '0'],
   ⟨['b', 'l', 'a', 'c', 'k', 'm', 'a', 'n'], 1000, 0, 0,
     3.141592653589793⟩,
   ⟨['r', 'a', 'm', 'p'], 1000, -5, 5, 0⟩,
   0⟩

/-- The fixed single-qubit register of CreateSimplePulserSequence: q0 at
position (0, 0). -/
def simpleRegister : Register := ⟨[(['q', '0'], [0, 0])]⟩

/-- CreateSimplePulserSequence from pkg/utils/helpers.go: the hardcoded
single-qubit, single-channel, single-pulse sequence value (its JSON
marshalling is collaborator-owned and out of scope). -/
def CreateSimplePulserSequence : SequenceBuilder :=
  ⟨simpleChannels, [simplePulse], simpleRegister⟩

/-- Build-time errors of the pulse-sequence constructor (§7 of the
specification, SerializationReferenceError family). -/
inductive BuildError where
  | danglingChannelReference : BuildError
  | duplicateQubitLabel : BuildError
  deriving DecidableEq

/-- Modelled from the spec: the repository declares the pulse-sequence
structures and the fixed CreateSimplePulserSequence example but contains
no general build(register positions, channel declarations, pulse list)
constructor; following §4.4 and the invariants of §3, build aggregates
its inputs after checking that every pulse references a declared channel
(else DanglingChannelReference) and that the register's qubit labels are
pairwise distinct (else DuplicateQubitLabel). -/
def build (register : List (List Char × List Coeff))
    (channels : List (List Char × Channel)) (pulses : List Pulse) :
    Except BuildError SequenceBuilder :=
  if ∃ p ∈ pulses, mapGet channels p.Channel = none then
    Except.error BuildError.danglingChannelReference
  else if ¬ (register.map Prod.fst).Nodup then
    Except.error BuildError.duplicateQubitLabel
  else Except.ok ⟨channels, pulses, ⟨register⟩⟩

/-- C9: pulse-sequence construction checks its referential invariants at
build time — a pulse list referencing an undeclared channel label fails
with DanglingChannelReference; a register with a duplicate qubit label
(and no dangling reference, the channel check running first) fails with
DuplicateQubitLabel; when both invariants hold, construction succeeds
with the pure aggregation of its inputs, as it does on the components of
the shipped CreateSimplePulserSequence example. -/
theorem build_checks (register : List (List Char × List Coeff))
    (channels : List (List Char × Channel)) (pulses : List Pulse) :
    ((∃ p ∈ pulses, mapGet channels p.Channel = none) →
      build register channels pulses =
        Except.error BuildError.danglingChannelReference) ∧
    (¬ (register.map Prod.fst).Nodup →
      (∀ p ∈ pulses, mapGet channels p.Channel ≠ none) →
      build register channels pulses =
        Except.error BuildError.duplicateQubitLabel) ∧
    ((register.map Prod.fst).Nodup →
      (∀ p ∈ pulses, mapGet channels p.Channel ≠ none) →
      build register channels pulses =
        Except.ok ⟨channels, pulses, ⟨register⟩⟩) ∧
    build simpleRegister.Positions simpleChannels [simplePulse] =
      Except.ok CreateSimplePulserSequence := by
  refine ⟨?_, ?_, ?_, by rfl⟩
  · intro hd
    unfold build
    rw [if_pos hd]
  · intro hdup hall
    unfold build
    rw [if_neg ?_, if_pos hdup]
    intro hc
    rcases hc with ⟨p, hp, hnone⟩
    exact hall p hp hnone
  · intro hnd hall
    unfold build
    rw [if_neg ?_, if_neg (fun hc => hc hnd)]
    intro hc
    rcases hc with ⟨p, hp, hnone⟩
    exact hall p hp hnone

/-- C9 witness: the theorem applied to a pulse referencing the undeclared
channel ch1 against the ch0-only declaration map of the shipped example
fails with DanglingChannelReference. -/
theorem build_checks_witness :
    build simpleRegister.Positions simpleChannels
        [{ simplePulse with Channel := ['c', 'h', '1'] }] =
      Except.error BuildError.danglingChannelReference :=
  (build_checks simpleRegister.Positions simpleChannels
      [{ simplePulse with Channel := ['c', 'h', '1'] }]).1
    ⟨{ simplePulse with Channel := ['c', 'h', '1'] },
      List.mem_singleton.mpr rfl, rfl⟩

end Quack
